import Mathlib

/-!
# Verification of the MAPopt estimation engine (mapopt-analysis)

A shallow embedding of the core numeric pipeline of `mapopt_analysis`:
sliding-window Pearson correlations between MAP and rSO2
(`core/signal_processing.py`), the Fisher variance-stabilizing transform,
the per-parameter-combination quadratic curve fit and weighting
(`core/mapopt_calculator.py`), the chunked parallel grid search with its
sequential fallback, the post-processing of the raw MAPopt series, and the
burden/deviation computation (`core/burden_metrics.py`).

Modelling conventions:
* Times (hours) are embedded as `ℚ` (the code only adds, subtracts,
  divides by 2/60 and compares them); signal values are embedded as `ℝ`.
* A float NaN is embedded as `Option.none`; numpy's NaN propagation
  through `clip` / `log` / arithmetic becomes `Option.map` / `Option.bind`.
* `np.polyfit(x, y, 2)` (least squares via lstsq) is embedded as the
  unique solution of the degree-2 normal equations by Cramer's rule; when
  the normal determinant vanishes (degenerate data, caught by the bare
  `except` in the source) the embedding returns `none`.
-/

namespace Mapopt

/-! ## Configuration constants (`config.py`) -/

/-- `COX_WINDOWS_MIN = [3, 5, 10, 20, 30, 60, 90, 120]` (minutes). -/
def COX_WINDOWS_MIN : List ℚ := [3, 5, 10, 20, 30, 60, 90, 120]

/-- `HISTORY_WINDOWS_HR = [1, 2, 3, 4, 5, 6, 7, 8, 12]` (hours). -/
def HISTORY_WINDOWS_HR : List ℚ := [1, 2, 3, 4, 5, 6, 7, 8, 12]

/-- `MAP_OPT_MIN = 40`. -/
def MAP_OPT_MIN : ℝ := 40

/-- `MAP_OPT_MAX = 90`. -/
def MAP_OPT_MAX : ℝ := 90

/-- `COX_WEIGHT_THRESHOLD = 0.3`. -/
def COX_WEIGHT_THRESHOLD : ℝ := 0.3

/-- `FISHER_BOUNDS = 0.999`. -/
def FISHER_BOUNDS : ℝ := 0.999

/-- `MIN_CORRELATION_POINTS = 3`. -/
def MIN_CORRELATION_POINTS : ℕ := 3

/-- `MIN_DATA_POINTS = 10`. -/
def MIN_DATA_POINTS : ℕ := 10

/-- `BURDEN_BOUNDS = 5` (mmHg). -/
def BURDEN_BOUNDS : ℝ := 5

/-- `DEVIATION_MIN = -50`. -/
def DEVIATION_MIN : ℝ := -50

/-- `DEVIATION_MAX = 50`. -/
def DEVIATION_MAX : ℝ := 50

/-- `SAVGOL_WINDOW = 11`. -/
def SAVGOL_WINDOW : ℕ := 11

/-- `CHUNK_SIZE = 25`. -/
def CHUNK_SIZE : ℕ := 25

/-! ## numpy primitives -/

/-- `np.clip(x, lo, hi)`: equivalent to `np.minimum(hi, np.maximum(x, lo))`. -/
noncomputable def npClip (x lo hi : ℝ) : ℝ := min (max x lo) hi

/-- Arithmetic mean of a list, `np.mean` (0 for the empty list, where numpy
gives NaN; every use below is guarded by a nonemptiness check). -/
noncomputable def npMean (l : List ℝ) : ℝ := l.sum / l.length

/-- `np.min` of a nonempty array (junk value 0 on `[]`, unreachable: numpy
raises there and every call site below is guarded). -/
noncomputable def npMin : List ℝ → ℝ
  | [] => 0
  | x :: xs => xs.foldl min x

/-- `np.max` of a nonempty array. -/
noncomputable def npMax : List ℝ → ℝ
  | [] => 0
  | x :: xs => xs.foldl max x

/-! ## `SignalProcessor.fisher_transform` / `inverse_fisher_transform`
(`core/signal_processing.py`, lines 100-125) -/

/-- `fisher_transform`: clip to `±FISHER_BOUNDS`, then
`0.5 * np.log((1 + r) / (1 - r))`. -/
noncomputable def fisher_transform (r : ℝ) : ℝ :=
  let r_clipped := npClip r (-FISHER_BOUNDS) FISHER_BOUNDS
  0.5 * Real.log ((1 + r_clipped) / (1 - r_clipped))

/-- `inverse_fisher_transform`: `np.tanh(z)`. -/
noncomputable def inverse_fisher_transform (z : ℝ) : ℝ := Real.tanh z

/-! ## `MAPoptCalculator._calculate_weight`
(`core/mapopt_calculator.py`, lines 246-259) -/

/-- `_calculate_weight(nadir_cox, r2)`. -/
noncomputable def calculate_weight (nadir_cox r2 : ℝ) : ℝ :=
  let cox_weight :=
    if nadir_cox < 0 then -nadir_cox
    else if nadir_cox ≤ COX_WEIGHT_THRESHOLD then
      (COX_WEIGHT_THRESHOLD - nadir_cox) / COX_WEIGHT_THRESHOLD
    else 0
  r2 * cox_weight

/-- The weighting scheme exactly as §4.4 of the specification words it,
for comparison with the code's `_calculate_weight`. -/
noncomputable def coxWeightSpec (nadirCorrelation : ℝ) : ℝ :=
  if nadirCorrelation < 0 then -nadirCorrelation
  else if nadirCorrelation ≤ 0.3 then (0.3 - nadirCorrelation) / 0.3
  else 0

/-! ## `SignalProcessor.fast_correlation`
(`core/signal_processing.py`, lines 71-98)

`fast_correlation` first checks the raw lengths against
`MIN_CORRELATION_POINTS`, then (inside the `try`) masks the pairwise-finite
entries and computes `np.corrcoef(x_clean, y_clean)[0, 1]`.  A non-finite
float is embedded as `none`.  `np.corrcoef`'s off-diagonal entry is
`cov(x,y) / (std x * std y) = sxy / sqrt(sxx * syy)` (the `n - 1`
normalisations cancel); it is NaN exactly when one column has zero
variance.  A length mismatch between `x` and `y` makes the numpy mask
expression raise, which the bare `except` turns into NaN. -/

/-- The pairwise-finite pairs: `mask = np.isfinite(x) & np.isfinite(y)`,
then `x[mask]`, `y[mask]` — a pair is kept only when both entries are
finite, and nothing is ever substituted for a dropped pair. -/
def finitePairs (x y : List (Option ℝ)) : List (ℝ × ℝ) :=
  (x.zip y).filterMap fun p => p.1.bind fun a => p.2.map fun b => (a, b)

/-- The Pearson coefficient of a list of pairs (`np.corrcoef(...)[0, 1]`);
`none` models the NaN that numpy's zero-variance division produces. -/
noncomputable def pearsonCoeff (pairs : List (ℝ × ℝ)) : Option ℝ :=
  let xs := pairs.map Prod.fst
  let ys := pairs.map Prod.snd
  let mx := npMean xs
  let my := npMean ys
  let sxx := (xs.map fun a => (a - mx) ^ 2).sum
  let syy := (ys.map fun b => (b - my) ^ 2).sum
  let sxy := (pairs.map fun p => (p.1 - mx) * (p.2 - my)).sum
  if sxx = 0 ∨ syy = 0 then none
  else some (sxy / Real.sqrt (sxx * syy))

/-- `SignalProcessor.fast_correlation(x, y)`. -/
noncomputable def fast_correlation (x y : List (Option ℝ)) : Option ℝ :=
  if x.length < MIN_CORRELATION_POINTS ∨ y.length < MIN_CORRELATION_POINTS then
    none
  else if x.length ≠ y.length then none
  else
    let pairs := finitePairs x y
    if pairs.length < MIN_CORRELATION_POINTS then none
    else pearsonCoeff pairs

/-! ## `SignalProcessor.calculate_sliding_window_correlations`
(`core/signal_processing.py`, lines 127-185) -/

/-- One row of the caller's `[time, MAP, rSO2]` data. -/
structure Sample where
  time : ℚ
  MAP : ℝ
  rSO2 : ℝ

/-- Python's `int()` on a rational value: truncation toward zero. -/
def intTrunc (q : ℚ) : ℤ := if 0 ≤ q then ⌊q⌋ else -⌊-q⌋

/-- The correlation observation one sliding sub-window contributes: skip
the step when the sub-window holds fewer than `MIN_DATA_POINTS` samples or
when the correlation is NaN; otherwise record `(corr, mean MAP)`. -/
noncomputable def windowStepObs (seg : List Sample) (win_hr step_size t_start : ℚ)
    (s : ℕ) : Option (ℝ × ℝ) :=
  let win_start := t_start + s * step_size
  let win_end := win_start + win_hr
  let winSamples := seg.filter fun smp => win_start ≤ smp.time ∧ smp.time < win_end
  if winSamples.length < MIN_DATA_POINTS then none
  else if 1 < winSamples.length then
    match fast_correlation (winSamples.map fun smp => some smp.MAP)
        (winSamples.map fun smp => some smp.rSO2) with
    | none => none
    | some corr => some (corr, npMean (winSamples.map Sample.MAP))
  else none

/-- `calculate_sliding_window_correlations(time, MAP, rSO2, win_hr, hist_hr,
t_now)`: returns the parallel lists `(cox_vals, map_vals)`. -/
noncomputable def calculate_sliding_window_correlations (samples : List Sample)
    (win_hr hist_hr t_now : ℚ) : List ℝ × List ℝ :=
  let t_start := t_now - hist_hr
  let seg := samples.filter fun s => t_start ≤ s.time ∧ s.time < t_now
  if seg.length < 60 then ([], [])
  else
    let step_size := win_hr / 2
    let num_steps := (intTrunc ((hist_hr - win_hr) / step_size) + 1).toNat
    let obs := (List.range num_steps).filterMap
      (windowStepObs seg win_hr step_size t_start)
    (obs.map Prod.fst, obs.map Prod.snd)

/-! ## `SignalProcessor.bin_correlations`
(`core/signal_processing.py`, lines 187-218) -/

/-- `MAP_BINS[b] = 40 + 5 b` (edges 40, 45, …, 100). -/
noncomputable def binEdge (b : ℕ) : ℝ := 40 + 5 * b

/-- `MAP_BIN_CENTERS[b] = MAP_BINS[b] + 2.5`. -/
noncomputable def binCenter (b : ℕ) : ℝ := binEdge b + 2.5

/-- `bin_correlations(cox_vals, map_vals, bins)`: 12 bins; a bin with no
observation is NaN (`none`). -/
noncomputable def bin_correlations (cox_vals map_vals : List ℝ) :
    List (Option ℝ) :=
  if cox_vals.length < 5 then List.replicate 12 none
  else
    (List.range 12).map fun b =>
      let sel := (cox_vals.zip map_vals).filter fun p =>
        binEdge b ≤ p.2 ∧ p.2 < binEdge (b + 1)
      if sel.length = 0 then none else some (npMean (sel.map Prod.fst))

/-! ## `MAPoptCalculator._calculate_single_fit`
(`core/mapopt_calculator.py`, lines 166-244) -/

/-- `np.polyfit(xs, ys, 2)`: the least-squares quadratic, embedded as the
unique solution of the normal equations (Cramer's rule), coefficients
highest power first.  `none` when the normal determinant vanishes, the
degenerate case absorbed by the source's bare `except`. -/
noncomputable def polyfit2 (xs ys : List ℝ) : Option (ℝ × ℝ × ℝ) :=
  let n : ℝ := xs.length
  let s1 := xs.sum
  let s2 := (xs.map fun x => x ^ 2).sum
  let s3 := (xs.map fun x => x ^ 3).sum
  let s4 := (xs.map fun x => x ^ 4).sum
  let t0 := ys.sum
  let t1 := ((xs.zip ys).map fun p => p.1 * p.2).sum
  let t2 := ((xs.zip ys).map fun p => p.1 ^ 2 * p.2).sum
  let det := s4 * (s2 * n - s1 * s1) - s3 * (s3 * n - s1 * s2) +
    s2 * (s3 * s1 - s2 * s2)
  if det = 0 then none
  else
    some ((t2 * (s2 * n - s1 * s1) - s3 * (t1 * n - t0 * s1) +
        s2 * (t1 * s1 - t0 * s2)) / det,
      (s4 * (t1 * n - t0 * s1) - t2 * (s3 * n - s1 * s2) +
        s2 * (s3 * t0 - t1 * s2)) / det,
      (s4 * (s2 * t0 - s1 * t1) - s3 * (s3 * t0 - t1 * s2) +
        t2 * (s3 * s1 - s2 * s2)) / det)

/-- `np.polyval([a, b, c], x) = a x² + b x + c`. -/
noncomputable def polyval2 (c : ℝ × ℝ × ℝ) (x : ℝ) : ℝ :=
  c.1 * x ^ 2 + c.2.1 * x + c.2.2

/-- The `fit_data` record built at line 228 of `mapopt_calculator.py`. -/
structure CurveFit where
  win_hr : ℚ
  hist_hr : ℚ
  bin_centers : List ℝ
  binned_cox : List ℝ
  binned_cox_fisher : List ℝ
  coeffs : ℝ × ℝ × ℝ
  mapopt : ℝ
  nadir_cox : ℝ
  r2 : ℝ
  weight : ℝ

/-- Lines 199-242 of `mapopt_calculator.py`: the quadratic fit over the
valid bins and its acceptance tests.  `valid` lists the triples
`(bin center, binned cox, Fisher-transformed binned cox)` of the bins that
hold a defined value. -/
noncomputable def acceptFit (win_hr hist_hr : ℚ) (valid : List (ℝ × ℝ × ℝ)) :
    Option (ℝ × ℝ × CurveFit) :=
  let xs := valid.map fun v => v.1
  let ys := valid.map fun v => v.2.2
  match polyfit2 xs ys with
  | none => none
  | some coeffs =>
    if 0 < coeffs.1 then
      let mapopt_theoretical := -coeffs.2.1 / (2 * coeffs.1)
      let data_min := npMin xs
      let data_max := npMax xs
      let mapopt := npClip mapopt_theoretical data_min data_max
      if MAP_OPT_MIN ≤ mapopt ∧ mapopt ≤ MAP_OPT_MAX then
        let yfit := xs.map (polyval2 coeffs)
        let SSE := ((ys.zip yfit).map fun p => (p.1 - p.2) ^ 2).sum
        let SST := (ys.map fun y => (y - npMean ys) ^ 2).sum
        let R2 := 1 - SSE / SST
        let nadir_cox := inverse_fisher_transform (polyval2 coeffs mapopt)
        let weight := calculate_weight nadir_cox R2
        if 1e-6 < weight then
          some (mapopt, weight,
            { win_hr := win_hr, hist_hr := hist_hr, bin_centers := xs,
              binned_cox := valid.map fun v => v.2.1,
              binned_cox_fisher := ys, coeffs := coeffs, mapopt := mapopt,
              nadir_cox := nadir_cox, r2 := R2, weight := weight })
        else none
      else none
    else none

/-- `_calculate_single_fit(t_now, t, MAP, rSO2, win_hr, hist_hr, bins,
bin_centers)`.  The `valid` mask over the Fisher-transformed binned values
equals the mask over the binned values, because `fisher_transform` maps
every float to a finite float and NaN to NaN. -/
noncomputable def calculate_single_fit (t_now : ℚ) (samples : List Sample)
    (win_hr hist_hr : ℚ) : Option (ℝ × ℝ × CurveFit) :=
  match samples.head? with
  | none => none
  | some s0 =>
    if t_now - hist_hr < s0.time then none
    else
      let cm := calculate_sliding_window_correlations samples win_hr hist_hr t_now
      if cm.2.length < 5 then none
      else
        let binned := bin_correlations cm.1 cm.2
        let valid := ((List.range 12).zip binned).filterMap fun p =>
          p.2.map fun v => (binCenter p.1, v, fisher_transform v)
        if 3 ≤ valid.length then acceptFit win_hr hist_hr valid else none

/-! ## `MAPoptCalculator._process_time_point`
(`core/mapopt_calculator.py`, lines 135-164) -/

/-- The 72 `(window, history)` combinations, in the loop order of
`_process_time_point` (`win_hr = cox_win_min / 60` outer, history inner). -/
def paramCombos : List (ℚ × ℚ) :=
  COX_WINDOWS_MIN.flatMap fun m => HISTORY_WINDOWS_HR.map fun h => (m / 60, h)

/-- `_process_time_point(args)`: sweep all combinations, collect the
accepted `(mapopt, weight, fit_data)` triples, and reduce to the weighted
mean `Σ(mapopt·weight)/Σweight`, or NaN with no diagnostics when no
combination was accepted. -/
noncomputable def process_time_point (k : ℕ) (samples : List Sample)
    (t_now : ℚ) : ℕ × Option ℝ × List CurveFit :=
  let results := paramCombos.filterMap fun p =>
    calculate_single_fit t_now samples p.1 p.2
  let mapopts := results.map fun r => r.1
  let weights := results.map fun r => r.2.1
  let local_fits := results.map fun r => r.2.2
  if mapopts ≠ [] ∧ 0 < weights.length then
    (k, some (((mapopts.zip weights).map fun p => p.1 * p.2).sum / weights.sum),
      local_fits)
  else (k, none, [])

/-- The `(candidate, weight)` pairs produced across the 72 combinations
at one evaluation time (§4.5 of the specification). -/
noncomputable def producedPairs (samples : List Sample) (t_now : ℚ) :
    List (ℝ × ℝ) :=
  paramCombos.filterMap fun p =>
    (calculate_single_fit t_now samples p.1 p.2).map fun r => (r.1, r.2.1)

/-- The retained `CurveFit` diagnostics across the 72 combinations. -/
noncomputable def producedFits (samples : List Sample) (t_now : ℚ) :
    List CurveFit :=
  paramCombos.filterMap fun p =>
    (calculate_single_fit t_now samples p.1 p.2).map fun r => r.2.2

/-! ## `MAPoptCalculator._post_process_mapopt`
(`core/mapopt_calculator.py`, lines 261-280)

The pipeline is: pandas `interpolate(method='pchip')`, `np.clip` to
`[40, 90]`, pandas `ffill().bfill()`, and `scipy.signal.savgol_filter`
(window 11, polyorder 3) when the series is longer than 11 points.

The pchip step is library code (pandas/scipy).  pandas' `interpolate_1d`
returns the series unchanged when it holds no valid value or no NaN at
all; otherwise it hands the valid points to scipy's `PchipInterpolator`,
which **raises `ValueError`** when given fewer than 2 points — so a
series with exactly one valid value alongside any NaN makes
`_post_process_mapopt` raise (embedded as `none`).  With at least two
valid points, pandas' default `limit_direction='forward'` and scipy's
extrapolating interpolator fill every NaN that has at least one valid
value before it and leave leading NaNs untouched.  The *positions*
filled are modelled exactly; the interpolated *values* are kept abstract
as a parameter `f : ℕ → ℝ` (the value the interpolant takes at index
`i`), because every claim about this pipeline is insensitive to them:
the clamp to `[40, 90]` follows immediately. -/

/-- The fill pattern of `pd.Series(...).interpolate(method='pchip')`:
`seen` records whether a valid value has occurred, `i` is the index. -/
def pchipFillGo (f : ℕ → ℝ) : ℕ → Bool → List (Option ℝ) → List (Option ℝ)
  | _, _, [] => []
  | i, _, some v :: xs => some v :: pchipFillGo f (i + 1) true xs
  | i, seen, none :: xs =>
    (if seen then some (f i) else none) :: pchipFillGo f (i + 1) seen xs

/-- `pd.Series(...).interpolate(method='pchip')`, with interpolant values
`f`.  No valid value or no NaN: returned unchanged.  Exactly one valid
value alongside a NaN: scipy's `PchipInterpolator` raises `ValueError`
("x must contain at least 2 elements"), embedded as `none`.  Otherwise
the gaps after the first valid value are filled. -/
def pchipFill (f : ℕ → ℝ) (xs : List (Option ℝ)) :
    Option (List (Option ℝ)) :=
  if (xs.filter fun o => o.isSome).length = 0 then some xs
  else if xs.all Option.isSome = true then some xs
  else if (xs.filter fun o => o.isSome).length = 1 then none
  else some (pchipFillGo f 0 false xs)

/-- `np.clip(mapopt_filled, MAP_OPT_MIN, MAP_OPT_MAX)` (NaN stays NaN). -/
noncomputable def clipStage (xs : List (Option ℝ)) : List (Option ℝ) :=
  xs.map (Option.map fun v => npClip v MAP_OPT_MIN MAP_OPT_MAX)

/-- pandas `ffill`: carry the last valid value forward. -/
def ffillGo : Option ℝ → List (Option ℝ) → List (Option ℝ)
  | _, [] => []
  | _, some v :: xs => some v :: ffillGo (some v) xs
  | c, none :: xs => c :: ffillGo c xs

/-- pandas `Series.ffill()`. -/
def ffill (xs : List (Option ℝ)) : List (Option ℝ) := ffillGo none xs

/-- pandas `Series.bfill()`: `ffill` on the reversed series. -/
def bfill (xs : List (Option ℝ)) : List (Option ℝ) :=
  (ffillGo none xs.reverse).reverse

/-- The symmetric window coordinates `-5 … 5` of an 11-point window. -/
noncomputable def savgolKs : List ℝ := [-5, -4, -3, -2, -1, 0, 1, 2, 3, 4, 5]

/-- The least-squares cubic through 11 equally spaced points (window
coordinates `-5 … 5`), evaluated at `x` — the primitive of
`scipy.signal.savgol_filter(window_length=11, polyorder=3,
mode='interp')`.  On the symmetric grid the normal equations decouple
into an even part (basis `{1, k²}`, moment matrix `[[11, 110], [110,
1958]]`, determinant `11·1958 − 110² = 9438`) and an odd part (basis
`{k, k³}`, moment matrix `[[110, 1958], [1958, 41030]]`, determinant
`110·41030 − 1958² = 679536`), solved here by Cramer's rule.  A NaN
anywhere in the window makes every float coefficient NaN (`none`). -/
noncomputable def cubicFit11 (w : List (Option ℝ)) (x : ℝ) : Option ℝ :=
  if w.length = 11 ∧ w.all Option.isSome = true then
    let ys := w.map fun o => o.getD 0
    let T0 := ys.sum
    let T1 := ((savgolKs.zip ys).map fun p => p.1 * p.2).sum
    let T2 := ((savgolKs.zip ys).map fun p => p.1 ^ 2 * p.2).sum
    let T3 := ((savgolKs.zip ys).map fun p => p.1 ^ 3 * p.2).sum
    let a0 := (1958 * T0 - 110 * T2) / 9438
    let a2 := (11 * T2 - 110 * T0) / 9438
    let a1 := (41030 * T1 - 1958 * T3) / 679536
    let a3 := (110 * T3 - 1958 * T1) / 679536
    some (a0 + a1 * x + a2 * x ^ 2 + a3 * x ^ 3)
  else none

/-- `savgol_filter(·, 11, 3)` at output index `i` (`mode='interp'`, the
scipy default): interior points take the value at the centre of the
least-squares cubic over their own window; the first and last 5 points
take the values of the least-squares cubic over the first and last 11
points, evaluated at their own positions. -/
noncomputable def savgolAt (ys : List (Option ℝ)) (i : ℕ) : Option ℝ :=
  let n := ys.length
  if i < 5 then cubicFit11 (ys.take 11) ((i : ℝ) - 5)
  else if n ≤ i + 5 then
    cubicFit11 (ys.drop (n - 11)) ((i : ℝ) - ((n : ℝ) - 6))
  else cubicFit11 ((ys.drop (i - 5)).take 11) 0

/-- `scipy.signal.savgol_filter(ys, 11, 3)`. -/
noncomputable def savgolFilter11 (ys : List (Option ℝ)) : List (Option ℝ) :=
  (List.range ys.length).map (savgolAt ys)

/-- `_post_process_mapopt(mapopt_series)`, with pchip interpolant values
`f`.  `none` models the `ValueError` the uncaught pchip step raises on a
series with exactly one valid value alongside a NaN. -/
noncomputable def post_process_mapopt (f : ℕ → ℝ) (series : List (Option ℝ)) :
    Option (List (Option ℝ)) :=
  match pchipFill f series with
  | none => none
  | some filled =>
    let clamped := clipStage filled
    let cleaned := bfill (ffill clamped)
    some (if SAVGOL_WINDOW < cleaned.length then savgolFilter11 cleaned
      else cleaned)

/-! ## `BurdenCalculator` (`core/burden_metrics.py`) -/

/-- `np.interp` over consecutive breakpoints (left/right clamping as
numpy does; the empty breakpoint list, where numpy raises, yields 0). -/
noncomputable def npInterpGo : List (ℚ × ℝ) → ℚ → ℝ
  | [], _ => 0
  | [(_, y)], _ => y
  | (x1, y1) :: (x2, y2) :: rest, q =>
    if q ≤ x1 then y1
    else if q ≤ x2 then y1 + (y2 - y1) * (((q - x1) / (x2 - x1) : ℚ) : ℝ)
    else npInterpGo ((x2, y2) :: rest) q

/-- `np.interp(q, xp, fp)` for increasing breakpoints `xp`. -/
noncomputable def npInterp (q : ℚ) (pts : List (ℚ × ℝ)) : ℝ := npInterpGo pts q

/-- The state `calculate_deviation_and_burden` stores on the calculator. -/
structure BurdenState where
  deviation : List ℝ
  lower_bound : List ℝ
  upper_bound : List ℝ
  outside_upper : List Bool
  outside_lower : List Bool
  outside_bounds : List Bool
  excess_above : List ℝ
  excess_below : List ℝ

/-- `calculate_deviation_and_burden(data, time_vector, mapopt_filled)`:
`data` is the original `(time, MAP)` signal. -/
noncomputable def calculate_deviation_and_burden (data : List (ℚ × ℝ))
    (time_vector : List ℚ) (mapopt_filled : List ℝ) : BurdenState :=
  let map_interp := time_vector.map fun tq => npInterp tq data
  let deviation := (map_interp.zip mapopt_filled).map fun p =>
    npClip (p.1 - p.2) DEVIATION_MIN DEVIATION_MAX
  let lower_bound := mapopt_filled.map fun m => m - BURDEN_BOUNDS
  let upper_bound := mapopt_filled.map fun m => m + BURDEN_BOUNDS
  let outside_upper := (map_interp.zip upper_bound).map fun p =>
    decide (p.2 < p.1)
  let outside_lower := (map_interp.zip lower_bound).map fun p =>
    decide (p.1 < p.2)
  let outside_bounds := outside_upper.zipWith (· || ·) outside_lower
  let excess_above := (map_interp.zip upper_bound).map fun p =>
    if p.2 < p.1 then p.1 - p.2 else 0
  let excess_below := (map_interp.zip lower_bound).map fun p =>
    if p.1 < p.2 then p.2 - p.1 else 0
  { deviation := deviation, lower_bound := lower_bound,
    upper_bound := upper_bound, outside_upper := outside_upper,
    outside_lower := outside_lower, outside_bounds := outside_bounds,
    excess_above := excess_above, excess_below := excess_below }

/-- The dictionary `calculate_burden_metrics` returns. -/
structure BurdenResult where
  t_start_hr : ℚ
  t_end_hr : ℚ
  time_burden : ℝ
  area_burden_ratio : ℝ

/-- `x[mask]` for a boolean mask aligned with `x`. -/
def maskedSelect {α : Type} (l : List α) (mask : List Bool) : List α :=
  ((l.zip mask).filter fun p => p.2).map fun p => p.1

/-- `np.trapz(ys, xs)` over consecutive pairs. -/
noncomputable def npTrapz : List (ℚ × ℝ) → ℝ
  | (x1, y1) :: (x2, y2) :: rest =>
    ((x2 : ℝ) - (x1 : ℝ)) * (y1 + y2) / 2 + npTrapz ((x2, y2) :: rest)
  | _ => 0

/-- `_calculate_area_burden(time_vector, time_idx)`. -/
noncomputable def calculate_area_burden (s : BurdenState)
    (time_vector : List ℚ) (mask : List Bool) : ℝ :=
  let ts := maskedSelect time_vector mask
  let excess := (s.excess_above.zipWith (· + ·) s.excess_below)
  let area_outside := npTrapz (ts.zip (maskedSelect excess mask))
  let width := (s.upper_bound.zipWith (· - ·) s.lower_bound)
  let area_safe_zone := npTrapz (ts.zip (maskedSelect width mask))
  if 0 < area_safe_zone then area_outside / area_safe_zone * 100 else 0

/-- `calculate_burden_metrics(time_vector, t_start_hr, t_end_hr)`.  The
calculator state is `none` before `calculate_deviation_and_burden` has
run; the guard `if self.outside_bounds is None: raise ValueError` is
embedded as the `none` result. -/
noncomputable def calculate_burden_metrics (st : Option BurdenState)
    (time_vector : List ℚ) (t_start_hr t_end_hr : ℚ) : Option BurdenResult :=
  match st with
  | none => none
  | some s =>
    let ts := max t_start_hr time_vector.headI
    let te := min t_end_hr time_vector.getLastI
    let mask := time_vector.map fun t => decide (ts ≤ t ∧ t ≤ te)
    if mask.count true = 0 then
      some ⟨ts, te, 0, 0⟩
    else
      let nIn : ℕ := mask.count true
      let nOut : ℕ := ((s.outside_bounds.zip mask).filter
        fun p => p.1 && p.2).length
      some ⟨ts, te, (nOut : ℝ) / (nIn : ℝ) * 100,
        calculate_area_burden s time_vector mask⟩

/-- `calculate_burden_over_time(time_vector, window_hours, step_hours)`:
the `while current <= end_time` loop runs `⌊(end - start)/step⌋ + 1`
times when `step_hours > 0` and `start ≤ end` (for `step_hours ≤ 0` the
source would not terminate; the model returns the empty sweep there). -/
noncomputable def calculate_burden_over_time (st : Option BurdenState)
    (time_vector : List ℚ) (window_hours step_hours : ℚ) :
    Option (List (ℚ × ℝ)) :=
  match st with
  | none => none
  | some s =>
    let start_time := time_vector.headI
    let end_time := time_vector.getLastI - window_hours
    let iters : ℕ :=
      if 0 < step_hours ∧ start_time ≤ end_time then
        (⌊(end_time - start_time) / step_hours⌋ + 1).toNat
      else 0
    some ((List.range iters).map fun i =>
      let window_start := start_time + i * step_hours
      let r := calculate_burden_metrics (some s) time_vector window_start
        (window_start + window_hours)
      (window_start + window_hours / 2, ((r.map fun b => b.time_burden).getD 0)))

/-! ## `MAPoptCalculator._process_parallel`
(`core/mapopt_calculator.py`, lines 84-133)

The output arrays `mapopt_series` / `all_fits_data` are embedded as one
slot function `ℕ → Option ℝ × List CurveFit` (initially `(NaN, [])`
everywhere); every worker result `(k, weighted_mapopt, local_fits)` is
written into slot `k`.  The parallel path processes chunks of
`CHUNK_SIZE` with `pool.map` (same pure function, results written by
index); an exception anywhere in the `try` block leaves the results of
some first `m` invocations stored, after which the `except` branch
re-runs every time point sequentially. -/

/-- The per-slot output state. -/
def Slots : Type := ℕ → Option ℝ × List CurveFit

/-- The preallocated output: `np.full(..., np.nan)` and `[[] for _ in ...]`. -/
def initSlots : Slots := fun _ => (none, [])

/-- Store one worker result by its time-grid index. -/
noncomputable def writeSlot (st : Slots) (r : ℕ × Option ℝ × List CurveFit) :
    Slots :=
  Function.update st r.1 r.2

/-- Run `_process_time_point` for the argument tuple `(k, t_now)`. -/
noncomputable def runOne (samples : List Sample) (a : ℕ × ℚ) :
    ℕ × Option ℝ × List CurveFit :=
  process_time_point a.1 samples a.2

/-- Store the results of a list of invocations, in order. -/
noncomputable def writeResults (samples : List Sample) (st : Slots)
    (args : List (ℕ × ℚ)) : Slots :=
  args.foldl (fun acc a => writeSlot acc (runOne samples a)) st

/-- The chunked parallel path: process `CHUNK_SIZE` argument tuples per
`pool.map` call, storing each chunk's results before the next chunk. -/
noncomputable def processChunks (samples : List Sample) (st : Slots) :
    List (ℕ × ℚ) → Slots
  | [] => st
  | a :: args =>
    processChunks samples
      (writeResults samples st ((a :: args).take CHUNK_SIZE))
      ((a :: args).drop CHUNK_SIZE)
  termination_by args => args.length
  decreasing_by simp [CHUNK_SIZE]; omega

/-- `_process_parallel` when the pool succeeds. -/
noncomputable def process_parallel_ok (samples : List Sample)
    (args : List (ℕ × ℚ)) : Slots :=
  processChunks samples initSlots args

/-- `_process_parallel` when the pool raises after the first `m`
invocations have been stored: the `except` branch re-runs every argument
tuple sequentially over the partially filled output. -/
noncomputable def process_parallel_fallback (samples : List Sample)
    (args : List (ℕ × ℚ)) (m : ℕ) : Slots :=
  writeResults samples (writeResults samples initSlots (args.take m)) args

/-- The argument list `_prepare_processing_args` builds: one `(k, t_now)`
per time-grid index. -/
def prepareArgs (time_vector : List ℚ) : List (ℕ × ℚ) := time_vector.enum

/-! ## Theorems for the Fisher transform (claim C2) -/

/-- `tanh (½ log u) = (u - 1) / (u + 1)` for positive `u`. -/
theorem tanh_half_log (u : ℝ) (hu : 0 < u) :
    Real.tanh (0.5 * Real.log u) = (u - 1) / (u + 1) := by
  have hs : (0 : ℝ) < Real.exp (0.5 * Real.log u) := Real.exp_pos _
  have hsq : Real.exp (0.5 * Real.log u) * Real.exp (0.5 * Real.log u) = u := by
    rw [← Real.exp_add]
    have : (0.5 : ℝ) * Real.log u + 0.5 * Real.log u = Real.log u := by ring
    rw [this, Real.exp_log hu]
  rw [Real.tanh_eq_sinh_div_cosh, Real.sinh_eq, Real.cosh_eq, Real.exp_neg]
  rw [div_eq_div_iff (by positivity) (by positivity)]
  field_simp
  nlinarith [hsq, hs]

/-- C2: for every correlation value `r` with `-0.999 < r < 0.999`, the
inverse Fisher transform of the forward Fisher transform of `r` is `r`
(exactly, in the real-number embedding of the float computation). -/
theorem fisher_roundtrip (r : ℝ) (h1 : -0.999 < r) (h2 : r < 0.999) :
    inverse_fisher_transform (fisher_transform r) = r := by
  have hclip : npClip r (-FISHER_BOUNDS) FISHER_BOUNDS = r := by
    unfold npClip FISHER_BOUNDS
    rw [max_eq_left h1.le, min_eq_left h2.le]
  have h1' : (0 : ℝ) < 1 + r := by linarith
  have h2' : (0 : ℝ) < 1 - r := by linarith
  unfold inverse_fisher_transform fisher_transform
  rw [hclip, tanh_half_log _ (by positivity)]
  rw [div_eq_iff (by positivity)]
  field_simp
  ring

/-- Witness for C2 at `r = 1/2`: the round trip reproduces `1/2`. -/
theorem fisher_roundtrip_witness :
    inverse_fisher_transform (fisher_transform (1/2)) = 1/2 :=
  fisher_roundtrip (1/2) (by norm_num) (by norm_num)

/-! ## Theorems for the correlation primitive (claim C6) -/

theorem npMean_const (l : List ℝ) (c : ℝ) (hne : l ≠ []) (h : ∀ x ∈ l, x = c) :
    npMean l = c := by
  have hl : l = List.replicate l.length c := by
    rw [List.eq_replicate_iff]
    exact ⟨rfl, h⟩
  unfold npMean
  rw [hl, List.sum_replicate, List.length_replicate, nsmul_eq_mul]
  have : (l.length : ℝ) ≠ 0 := by
    simpa using fun hz => hne (List.length_eq_zero.mp hz)
  field_simp

theorem fastCorr_none_of_pairs_lt (x y : List (Option ℝ))
    (h : (finitePairs x y).length < MIN_CORRELATION_POINTS) :
    fast_correlation x y = none := by
  simp only [fast_correlation]
  split_ifs with h1 h2 <;> rfl

/-- `fast_correlation` written out as nested conditionals. -/
theorem fastCorr_eq_ite (x y : List (Option ℝ)) :
    fast_correlation x y =
      if x.length < 3 ∨ y.length < 3 then none
      else if x.length ≠ y.length then none
      else if (finitePairs x y).length < 3 then none
      else pearsonCoeff (finitePairs x y) := rfl

/-- Every defined result of `fast_correlation` is the Pearson coefficient
of the pairwise-finite pairs, and there are at least 3 of them. -/
theorem fastCorr_none_or_pearson (x y : List (Option ℝ)) :
    fast_correlation x y = none ∨
      (MIN_CORRELATION_POINTS ≤ (finitePairs x y).length ∧
        fast_correlation x y = pearsonCoeff (finitePairs x y)) := by
  simp only [fast_correlation]
  split_ifs with h1 h2 h3
  · exact Or.inl rfl
  · exact Or.inl rfl
  · exact Or.inl rfl
  · exact Or.inr ⟨not_lt.mp h3, rfl⟩

theorem pearson_none_of_const_fst (pairs : List (ℝ × ℝ)) (c : ℝ)
    (hne : pairs ≠ []) (h : ∀ p ∈ pairs, p.1 = c) :
    pearsonCoeff pairs = none := by
  simp only [pearsonCoeff]
  have hmean : npMean (pairs.map Prod.fst) = c := by
    refine npMean_const _ c (by simpa using hne) ?_
    intro a ha
    obtain ⟨p, hp, rfl⟩ := List.mem_map.mp ha
    exact h p hp
  have hz : ((pairs.map Prod.fst).map
      fun a => (a - npMean (pairs.map Prod.fst)) ^ 2).sum = 0 := by
    apply List.sum_eq_zero
    intro z hz
    obtain ⟨a, ha, rfl⟩ := List.mem_map.mp hz
    obtain ⟨p, hp, rfl⟩ := List.mem_map.mp ha
    rw [hmean, h p hp, sub_self]
    ring
  rw [if_pos (Or.inl hz)]

theorem pearson_none_of_const_snd (pairs : List (ℝ × ℝ)) (c : ℝ)
    (hne : pairs ≠ []) (h : ∀ p ∈ pairs, p.2 = c) :
    pearsonCoeff pairs = none := by
  simp only [pearsonCoeff]
  have hmean : npMean (pairs.map Prod.snd) = c := by
    refine npMean_const _ c (by simpa using hne) ?_
    intro a ha
    obtain ⟨p, hp, rfl⟩ := List.mem_map.mp ha
    exact h p hp
  have hz : ((pairs.map Prod.snd).map
      fun b => (b - npMean (pairs.map Prod.snd)) ^ 2).sum = 0 := by
    apply List.sum_eq_zero
    intro z hz
    obtain ⟨a, ha, rfl⟩ := List.mem_map.mp hz
    obtain ⟨p, hp, rfl⟩ := List.mem_map.mp ha
    rw [hmean, h p hp, sub_self]
    ring
  rw [if_pos (Or.inr hz)]

theorem finitePairs_append (x₁ x₂ y₁ y₂ : List (Option ℝ))
    (hlen : x₁.length = y₁.length) :
    finitePairs (x₁ ++ x₂) (y₁ ++ y₂) =
      finitePairs x₁ y₁ ++ finitePairs x₂ y₂ := by
  unfold finitePairs
  rw [List.zip_append hlen, List.filterMap_append]

theorem finitePairs_cons_none (x y : List (Option ℝ)) (b : Option ℝ) :
    finitePairs (none :: x) (b :: y) = finitePairs x y := by
  simp [finitePairs]

theorem finitePairs_length_le_left (x y : List (Option ℝ)) :
    (finitePairs x y).length ≤ x.length := by
  calc (finitePairs x y).length ≤ (x.zip y).length :=
        List.length_filterMap_le _ _
    _ ≤ x.length := by rw [List.length_zip]; exact min_le_left _ _

theorem finitePairs_length_le_right (x y : List (Option ℝ)) :
    (finitePairs x y).length ≤ y.length := by
  calc (finitePairs x y).length ≤ (x.zip y).length :=
        List.length_filterMap_le _ _
    _ ≤ y.length := by rw [List.length_zip]; exact min_le_right _ _

theorem fastCorr_skip_none (x₁ x₂ y₁ y₂ : List (Option ℝ)) (b : Option ℝ)
    (hlen : x₁.length = y₁.length) :
    fast_correlation (x₁ ++ none :: x₂) (y₁ ++ b :: y₂) =
      fast_correlation (x₁ ++ x₂) (y₁ ++ y₂) := by
  have hpairs : finitePairs (x₁ ++ none :: x₂) (y₁ ++ b :: y₂) =
      finitePairs (x₁ ++ x₂) (y₁ ++ y₂) := by
    rw [finitePairs_append _ _ _ _ hlen, finitePairs_append _ _ _ _ hlen,
      finitePairs_cons_none]
  by_cases hp : (finitePairs (x₁ ++ x₂) (y₁ ++ y₂)).length <
      MIN_CORRELATION_POINTS
  · rw [fastCorr_none_of_pairs_lt _ _ (hpairs ▸ hp),
      fastCorr_none_of_pairs_lt _ _ hp]
  · have h3 : MIN_CORRELATION_POINTS ≤
        (finitePairs (x₁ ++ x₂) (y₁ ++ y₂)).length := not_lt.mp hp
    have hx : MIN_CORRELATION_POINTS ≤ (x₁ ++ x₂).length :=
      le_trans h3 (finitePairs_length_le_left _ _)
    have hy : MIN_CORRELATION_POINTS ≤ (y₁ ++ y₂).length :=
      le_trans h3 (finitePairs_length_le_right _ _)
    rw [fastCorr_eq_ite, fastCorr_eq_ite, hpairs]
    simp only [List.length_append, List.length_cons] at hlen hx hy ⊢
    simp only [MIN_CORRELATION_POINTS] at hp hx hy
    split_ifs with a1 a2 a3 a4 <;> first | rfl | omega

/-- C6 (amended): the correlation primitive is NaN when fewer than 3
pairwise-finite pairs exist or when either column is constant over those
pairs; and a non-finite entry is excluded pairwise (dropping it changes
nothing), never substituted.  The 10-sample minimum is *not* checked by
the primitive (see the counterexample); it is enforced by the
sliding-window collectors before the primitive is invoked. -/
theorem fast_correlation_undefined_cases (x y x₁ x₂ y₁ y₂ : List (Option ℝ))
    (c : ℝ) (b : Option ℝ) :
    ((finitePairs x y).length < 3 → fast_correlation x y = none) ∧
      ((∀ p ∈ finitePairs x y, p.1 = c) → fast_correlation x y = none) ∧
      ((∀ p ∈ finitePairs x y, p.2 = c) → fast_correlation x y = none) ∧
      (x₁.length = y₁.length →
        fast_correlation (x₁ ++ none :: x₂) (y₁ ++ b :: y₂) =
          fast_correlation (x₁ ++ x₂) (y₁ ++ y₂)) ∧
      (∀ (seg : List Sample) (win_hr step_size t_start : ℚ) (st : ℕ),
        (seg.filter fun smp => t_start + st * step_size ≤ smp.time ∧
          smp.time < t_start + st * step_size + win_hr).length <
            MIN_DATA_POINTS →
        windowStepObs seg win_hr step_size t_start st = none) := by
  refine ⟨fun h => fastCorr_none_of_pairs_lt x y h, ?_, ?_,
    fun h => fastCorr_skip_none x₁ x₂ y₁ y₂ b h, ?_⟩
  rotate_right
  · intro seg win_hr step_size t_start st h
    simp only [windowStepObs]
    rw [if_pos h]
  · intro h
    rcases fastCorr_none_or_pearson x y with hn | ⟨h3, he⟩
    · exact hn
    · rw [he]
      refine pearson_none_of_const_fst _ c ?_ h
      intro hnil
      rw [hnil] at h3
      simp [MIN_CORRELATION_POINTS] at h3
  · intro h
    rcases fastCorr_none_or_pearson x y with hn | ⟨h3, he⟩
    · exact hn
    · rw [he]
      refine pearson_none_of_const_snd _ c ?_ h
      intro hnil
      rw [hnil] at h3
      simp [MIN_CORRELATION_POINTS] at h3

/-- Counterexample to C6 as stated: five (&lt; 10) varying finite pairs
give a *defined* correlation (here exactly 1), so the primitive does not
return NaN below the `MIN_DATA_POINTS = 10` threshold. -/
theorem fast_correlation_five_points_defined :
    fast_correlation [some 1, some 2, some 3, some 4, some 5]
        [some 1, some 2, some 3, some 4, some 5] = some 1 ∧
      ([some (1 : ℝ), some 2, some 3, some 4, some 5].length <
        MIN_DATA_POINTS) := by
  constructor
  · have hpairs : finitePairs [some 1, some 2, some 3, some 4, some 5]
        [some 1, some 2, some 3, some 4, some 5] =
        [((1 : ℝ), (1 : ℝ)), (2, 2), (3, 3), (4, 4), (5, 5)] := rfl
    simp only [fast_correlation, MIN_CORRELATION_POINTS, hpairs]
    norm_num
    simp only [pearsonCoeff, npMean]
    norm_num
    rw [show (100 : ℝ) = 10 ^ 2 by norm_num,
      Real.sqrt_sq (by norm_num : (0 : ℝ) ≤ 10)]
    norm_num
  · simp [MIN_DATA_POINTS]

/-! ## Theorems for the weighting scheme (claim C5) -/

/-- C5: the code's weight is `R² ×` the specification's piecewise cox
weight for every input, and in particular it is `0` whenever the nadir
correlation exceeds the threshold `0.3`, regardless of `R²`. -/
theorem calculate_weight_spec (nadir_cox r2 : ℝ) :
    calculate_weight nadir_cox r2 = r2 * coxWeightSpec nadir_cox ∧
      (0.3 < nadir_cox → calculate_weight nadir_cox r2 = 0) := by
  constructor
  · simp only [calculate_weight, coxWeightSpec, COX_WEIGHT_THRESHOLD]
  · intro h
    simp only [calculate_weight, COX_WEIGHT_THRESHOLD]
    rw [if_neg (by linarith), if_neg (by linarith), mul_zero]

/-! ## Theorems for the sliding-window thresholds (claim C7) -/

/-- C7: the sliding-window collection yields no observations unless at
least 60 raw samples lie inside the lookback period, and a `(window,
history)` combination yields no fit at all (and no error) when fewer than
5 correlation observations result. -/
theorem sliding_window_thresholds (samples : List Sample)
    (win_hr hist_hr t_now : ℚ) :
    ((samples.filter fun s =>
        t_now - hist_hr ≤ s.time ∧ s.time < t_now).length < 60 →
      calculate_sliding_window_correlations samples win_hr hist_hr t_now =
        ([], [])) ∧
    ((calculate_sliding_window_correlations samples win_hr hist_hr
        t_now).2.length < 5 →
      calculate_single_fit t_now samples win_hr hist_hr = none) := by
  constructor
  · intro h
    simp only [calculate_sliding_window_correlations]
    rw [if_pos h]
  · intro h
    simp only [calculate_single_fit]
    split
    · rfl
    · split_ifs <;> rfl

/-- Witness for C7: three samples in the lookback give no observations
and no fit. -/
theorem sliding_window_thresholds_witness :
    calculate_sliding_window_correlations
        [⟨0, 70, 60⟩, ⟨1/2, 71, 61⟩, ⟨1, 72, 62⟩] (1/20) 1 1 = ([], []) ∧
      calculate_single_fit 1 [⟨0, 70, 60⟩, ⟨1/2, 71, 61⟩, ⟨1, 72, 62⟩]
        (1/20) 1 = none := by
  have h := sliding_window_thresholds
    [⟨0, 70, 60⟩, ⟨1/2, 71, 61⟩, ⟨1, 72, 62⟩] (1/20) 1 1
  have hlen : (List.filter (fun s => decide (1 - 1 ≤ s.time ∧ s.time < 1))
      [(⟨0, 70, 60⟩ : Sample), ⟨1/2, 71, 61⟩, ⟨1, 72, 62⟩]).length < 60 := by
    norm_num [List.filter]
  refine ⟨h.1 hlen, h.2 ?_⟩
  rw [h.1 hlen]
  norm_num

/-! ## Theorems for the accepted-fit bounds (claim C4) -/

theorem foldl_min_le_init (xs : List ℝ) (x : ℝ) : xs.foldl min x ≤ x := by
  induction xs generalizing x with
  | nil => exact le_refl x
  | cons a as ih => exact le_trans (ih (min x a)) (min_le_left x a)

theorem init_le_foldl_max (xs : List ℝ) (x : ℝ) : x ≤ xs.foldl max x := by
  induction xs generalizing x with
  | nil => exact le_refl x
  | cons a as ih => exact le_trans (le_max_left x a) (ih (max x a))

theorem npMin_le_npMax (l : List ℝ) (h : l ≠ []) : npMin l ≤ npMax l := by
  cases l with
  | nil => exact (h rfl).elim
  | cons x xs =>
    simp only [npMin, npMax]
    exact le_trans (foldl_min_le_init xs x) (init_le_foldl_max xs x)

theorem npClip_bounds (v lo hi : ℝ) (h : lo ≤ hi) :
    lo ≤ npClip v lo hi ∧ npClip v lo hi ≤ hi := by
  unfold npClip
  exact ⟨le_min (le_max_right v lo) h, min_le_right _ _⟩

theorem polyfit2_nil (ys : List ℝ) : polyfit2 [] ys = none := by
  norm_num [polyfit2]

/-- Any accepted fit carries its contributing bin centers, and its
candidate lies inside `[MAP_OPT_MIN, MAP_OPT_MAX]` and inside the span of
those centers, with a weight above the acceptance threshold. -/
theorem acceptFit_some (win_hr hist_hr : ℚ) (valid : List (ℝ × ℝ × ℝ))
    (r : ℝ × ℝ × CurveFit) (h : acceptFit win_hr hist_hr valid = some r) :
    r.2.2.bin_centers = valid.map (fun v => v.1) ∧
      MAP_OPT_MIN ≤ r.1 ∧ r.1 ≤ MAP_OPT_MAX ∧
      npMin r.2.2.bin_centers ≤ r.1 ∧ r.1 ≤ npMax r.2.2.bin_centers ∧
      r.2.2.mapopt = r.1 ∧ 1e-6 < r.2.1 := by
  simp only [acceptFit] at h
  split at h
  · exact Option.noConfusion h
  · rename_i coeffs hpoly
    split_ifs at h with h1 h2 h3 <;> try exact Option.noConfusion h
    have hvalid : valid ≠ [] := by
      intro hnil
      rw [hnil] at hpoly
      simp only [List.map_nil] at hpoly
      rw [polyfit2_nil] at hpoly
      exact absurd hpoly (by simp)
    have hx : (valid.map fun v => v.1) ≠ [] := by
      simpa using hvalid
    have hmm : npMin (valid.map fun v => v.1) ≤
        npMax (valid.map fun v => v.1) := npMin_le_npMax _ hx
    have hclip := npClip_bounds (-coeffs.2.1 / (2 * coeffs.1))
      (npMin (valid.map fun v => v.1)) (npMax (valid.map fun v => v.1)) hmm
    obtain rfl := Option.some.inj h
    exact ⟨rfl, h2.1, h2.2, hclip.1, hclip.2, rfl, h3⟩

/-- C4: every fit that `_calculate_single_fit` returns has its candidate
MAPopt inside `[40, 90]` and inside the closed span of the bin centers
that contributed valid points to the quadratic fit (the record's own
`bin_centers`), and its weight exceeds the acceptance threshold. -/
theorem accepted_fit_within_bounds (t_now : ℚ) (samples : List Sample)
    (win_hr hist_hr : ℚ) :
    (calculate_single_fit t_now samples win_hr hist_hr).elim True fun r =>
      (MAP_OPT_MIN ≤ r.2.2.mapopt ∧ r.2.2.mapopt ≤ MAP_OPT_MAX) ∧
        npMin r.2.2.bin_centers ≤ r.2.2.mapopt ∧
        r.2.2.mapopt ≤ npMax r.2.2.bin_centers ∧
        r.1 = r.2.2.mapopt ∧ 1e-6 < r.2.1 := by
  cases hfit : calculate_single_fit t_now samples win_hr hist_hr with
  | none => exact trivial
  | some r =>
    simp only [Option.elim]
    simp only [calculate_single_fit] at hfit
    split at hfit
    · exact Option.noConfusion hfit
    · split_ifs at hfit with h1 h2 h3 <;> try exact Option.noConfusion hfit
      obtain ⟨hcent, h40, h90, hmin, hmax, hmap, hw⟩ :=
        acceptFit_some _ _ _ _ hfit
      rw [hmap]
      exact ⟨⟨h40, h90⟩, hmin, hmax, rfl, hw⟩

/-- The acceptance branch of the fit is reachable: the parabola through
`(50, 0)`, `(70, -1)`, `(90, 0)` in Fisher space opens upward, has its
vertex at 70 inside `[40, 90]`, fits exactly (`R² = 1`) and weighs
`tanh 1 > 1e-6`, so `acceptFit` returns a fit with candidate 70. -/
theorem acceptFit_reachable :
    ∃ r, acceptFit 1 1
        [((50 : ℝ), (0 : ℝ), (0 : ℝ)), (70, 0, -1), (90, 0, 0)] = some r ∧
      r.1 = 70 := by
  have hpoly : polyfit2 [(50 : ℝ), 70, 90] [(0 : ℝ), -1, 0] =
      some (1/400, -7/20, 45/4) := by
    simp only [polyfit2, List.map_cons, List.map_nil, List.sum_cons,
      List.sum_nil, List.zip_cons_cons, List.zip_nil_right, List.length_cons,
      List.length_nil]
    norm_num
  have htanhpos : 0 < Real.tanh 1 := by
    rw [Real.tanh_eq_sinh_div_cosh]
    exact div_pos (Real.sinh_pos_iff.mpr one_pos) (Real.cosh_pos 1)
  have hmin : npMin [(50 : ℝ), 70, 90] = 50 := by
    norm_num [npMin, List.foldl_cons, List.foldl_nil, min_def]
  have hmax : npMax [(50 : ℝ), 70, 90] = 90 := by
    norm_num [npMax, List.foldl_cons, List.foldl_nil, max_def]
  have hclip : npClip (-(-7/20) / (2 * (1/400))) (npMin [(50 : ℝ), 70, 90])
      (npMax [(50 : ℝ), 70, 90]) = 70 := by
    rw [hmin, hmax]
    norm_num [npClip, max_def, min_def]
  have hval : polyval2 (1/400, -7/20, 45/4) (70 : ℝ) = -1 := by
    norm_num [polyval2]
  have hnad : inverse_fisher_transform (-1 : ℝ) = -Real.tanh 1 := by
    rw [inverse_fisher_transform, show ((-1 : ℝ) = -(1 : ℝ)) from rfl,
      Real.tanh_neg]
  have hw : calculate_weight (-Real.tanh 1) 1 = Real.tanh 1 := by
    simp only [calculate_weight]
    rw [if_pos (neg_lt_zero.mpr htanhpos)]
    ring
  have hbound : (1 / 1000000 : ℝ) < Real.tanh 1 := by
    rw [Real.tanh_eq_sinh_div_cosh, Real.sinh_eq, Real.cosh_eq, Real.exp_neg]
    have he1 : (2.7182818283 : ℝ) < Real.exp 1 := Real.exp_one_gt_d9
    have hepos : (0 : ℝ) < Real.exp 1 := Real.exp_pos 1
    have hinv : (Real.exp 1)⁻¹ < 1 := by
      rw [inv_lt_one_iff₀]
      right
      linarith
    have hinvpos : (0 : ℝ) < (Real.exp 1)⁻¹ := by positivity
    have he2 : Real.exp 1 < 2.7182818286 := Real.exp_one_lt_d9
    rw [lt_div_iff (by positivity)]
    nlinarith
  simp only [acceptFit, List.map_cons, List.map_nil, hpoly]
  rw [if_pos (by norm_num)]
  simp only [hclip]
  rw [if_pos (by norm_num [MAP_OPT_MIN, MAP_OPT_MAX])]
  have hyfit : List.map (polyval2 (1/400, -7/20, 45/4)) [(50 : ℝ), 70, 90] =
      [0, -1, 0] := by
    simp only [List.map_cons, List.map_nil]
    norm_num [polyval2]
  norm_num [polyval2, npMean, List.zip_cons_cons, List.zip_nil_right]
  rw [hnad, hw]
  exact hbound

/-! ## Theorems for the per-time-point aggregation (claim C3) -/

/-- C3: at every evaluation time, if any `(candidate, weight)` pair was
produced across the 72 `(window, history)` combinations the estimate is
the weighted mean `Σ(candidate·weight)/Σweight` of all produced pairs
(with the full diagnostics list); if none was produced the estimate is
NaN and the diagnostics list is empty. -/
theorem process_time_point_weighted_mean (k : ℕ) (samples : List Sample)
    (t_now : ℚ) :
    paramCombos.length = 72 ∧
      (producedPairs samples t_now = [] →
        process_time_point k samples t_now = (k, none, [])) ∧
      (producedPairs samples t_now ≠ [] →
        process_time_point k samples t_now =
          (k, some (((producedPairs samples t_now).map fun q =>
              q.1 * q.2).sum / ((producedPairs samples t_now).map
              Prod.snd).sum),
            producedFits samples t_now)) := by
  have hpairs : producedPairs samples t_now =
      (paramCombos.filterMap fun p =>
        calculate_single_fit t_now samples p.1 p.2).map fun r =>
        (r.1, r.2.1) := by
    rw [List.map_filterMap]
    rfl
  have hfits : producedFits samples t_now =
      (paramCombos.filterMap fun p =>
        calculate_single_fit t_now samples p.1 p.2).map fun r => r.2.2 := by
    rw [List.map_filterMap]
    rfl
  refine ⟨rfl, ?_, ?_⟩
  · intro h
    rw [hpairs, List.map_eq_nil_iff] at h
    simp only [process_time_point, h]
    rfl
  · intro h
    rw [hpairs, Ne, List.map_eq_nil_iff, ← Ne] at h
    simp only [process_time_point]
    rw [if_pos ⟨by simpa using h, by simpa using List.length_pos.mpr h⟩]
    simp only [hpairs, hfits, List.zip_map', List.map_map]
    rfl

/-! ## Theorems for the series post-processing (claim C1) -/

theorem pchipFillGo_length (f : ℕ → ℝ) (i : ℕ) (seen : Bool)
    (xs : List (Option ℝ)) : (pchipFillGo f i seen xs).length = xs.length := by
  induction xs generalizing i seen with
  | nil => rfl
  | cons x xs ih =>
    cases x with
    | some v => simp [pchipFillGo, ih]
    | none => simp [pchipFillGo, ih]

theorem pchipFillGo_seen_isSome (f : ℕ → ℝ) (i : ℕ) (xs : List (Option ℝ)) :
    ∀ o ∈ pchipFillGo f i true xs, o.isSome := by
  induction xs generalizing i with
  | nil => intro o ho; simp [pchipFillGo] at ho
  | cons x xs ih =>
    intro o ho
    cases x with
    | some v =>
      rcases List.mem_cons.mp ho with rfl | hm
      · rfl
      · exact ih (i + 1) o hm
    | none =>
      rcases List.mem_cons.mp ho with rfl | hm
      · rfl
      · exact ih (i + 1) o hm

/-- The pchip fill output is a (possibly empty) block of leading NaNs
followed by defined values. -/
theorem pchipFillGo_shape (f : ℕ → ℝ) (i : ℕ) (xs : List (Option ℝ)) :
    ∃ k ys, pchipFillGo f i false xs = List.replicate k none ++ ys ∧
      ∀ o ∈ ys, o.isSome := by
  induction xs generalizing i with
  | nil => exact ⟨0, [], rfl, by simp⟩
  | cons x xs ih =>
    cases x with
    | some v =>
      refine ⟨0, some v :: pchipFillGo f (i + 1) true xs, rfl, ?_⟩
      intro o ho
      rcases List.mem_cons.mp ho with rfl | hm
      · rfl
      · exact pchipFillGo_seen_isSome f (i + 1) xs o hm
    | none =>
      obtain ⟨k, ys, heq, hys⟩ := ih (i + 1)
      exact ⟨k + 1, ys, by simp [pchipFillGo, heq, List.replicate_succ], hys⟩

theorem pchipFillGo_preserves_some (f : ℕ → ℝ) (i : ℕ) (seen : Bool)
    (xs : List (Option ℝ)) (h : ∃ o ∈ xs, o.isSome) :
    ∃ o ∈ pchipFillGo f i seen xs, o.isSome := by
  induction xs generalizing i seen with
  | nil => simp at h
  | cons x xs ih =>
    cases x with
    | some v => exact ⟨some v, by simp [pchipFillGo], rfl⟩
    | none =>
      obtain ⟨o, ho, hs⟩ := h
      rcases List.mem_cons.mp ho with rfl | hm
      · exact absurd hs (by simp)
      · obtain ⟨o', ho', hs'⟩ := ih (i + 1) seen ⟨o, hm, hs⟩
        exact ⟨o', by simp [pchipFillGo, ho'], hs'⟩

theorem clipStage_shape (k : ℕ) (ys : List (Option ℝ)) :
    clipStage (List.replicate k none ++ ys) =
      List.replicate k none ++ clipStage ys := by
  simp [clipStage, List.map_append, List.map_replicate]

theorem clipStage_isSome (ys : List (Option ℝ)) (h : ∀ o ∈ ys, o.isSome) :
    ∀ o ∈ clipStage ys, o.isSome := by
  intro o ho
  obtain ⟨y, hy, rfl⟩ := List.mem_map.mp ho
  have := h y hy
  cases y with
  | none => exact absurd this (by simp)
  | some w => rfl

theorem clipStage_values (ys : List (Option ℝ)) (v : ℝ)
    (h : some v ∈ clipStage ys) : MAP_OPT_MIN ≤ v ∧ v ≤ MAP_OPT_MAX := by
  obtain ⟨y, _, hy⟩ := List.mem_map.mp h
  cases y with
  | none => exact absurd hy (by simp)
  | some w =>
    have hv : npClip w MAP_OPT_MIN MAP_OPT_MAX = v := by
      simpa using hy
    have hb := npClip_bounds w MAP_OPT_MIN MAP_OPT_MAX
      (by norm_num [MAP_OPT_MIN, MAP_OPT_MAX])
    rw [hv] at hb
    exact hb

theorem ffillGo_allSome (c : Option ℝ) (xs : List (Option ℝ))
    (h : ∀ o ∈ xs, o.isSome) : ffillGo c xs = xs := by
  induction xs generalizing c with
  | nil => rfl
  | cons x xs ih =>
    cases x with
    | some v => simp [ffillGo, ih (some v) fun o ho => h o (by simp [ho])]
    | none => exact absurd (h none (by simp)) (by simp)

theorem ffill_shape (k : ℕ) (ys : List (Option ℝ))
    (h : ∀ o ∈ ys, o.isSome) :
    ffillGo none (List.replicate k none ++ ys) =
      List.replicate k none ++ ys := by
  induction k with
  | zero => simpa using ffillGo_allSome none ys h
  | succ k ih => simpa [List.replicate_succ, ffillGo] using ih

theorem ffillGo_carry_isSome (c : Option ℝ) (xs : List (Option ℝ))
    (hc : c.isSome) : ∀ o ∈ ffillGo c xs, o.isSome := by
  induction xs generalizing c with
  | nil => intro o ho; simp [ffillGo] at ho
  | cons x xs ih =>
    intro o ho
    cases x with
    | some v =>
      rcases List.mem_cons.mp ho with rfl | hm
      · rfl
      · exact ih (some v) rfl o hm
    | none =>
      rcases List.mem_cons.mp ho with rfl | hm
      · exact hc
      · exact ih c hc o hm

theorem ffillGo_front_isSome (ys zs : List (Option ℝ)) (hne : ys ≠ [])
    (h : ∀ o ∈ ys, o.isSome) : ∀ o ∈ ffillGo none (ys ++ zs), o.isSome := by
  cases ys with
  | nil => exact absurd rfl hne
  | cons a as =>
    obtain ⟨w, rfl⟩ := Option.isSome_iff_exists.mp (h a (by simp))
    intro o ho
    rcases List.mem_cons.mp (by simpa [ffillGo] using ho) with rfl | hm
    · rfl
    · exact ffillGo_carry_isSome (some w) (as ++ zs) rfl o hm

theorem bfill_isSome (k : ℕ) (ys : List (Option ℝ)) (hne : ys ≠ [])
    (h : ∀ o ∈ ys, o.isSome) :
    ∀ o ∈ bfill (List.replicate k none ++ ys), o.isSome := by
  intro o ho
  unfold bfill at ho
  rw [List.mem_reverse] at ho
  rw [List.reverse_append, List.reverse_replicate] at ho
  refine ffillGo_front_isSome ys.reverse (List.replicate k none) ?_ ?_ o ho
  · simpa using hne
  · intro o' ho'
    exact h o' (List.mem_reverse.mp ho')

theorem ffillGo_value_mem (c : Option ℝ) (xs : List (Option ℝ)) (v : ℝ)
    (h : some v ∈ ffillGo c xs) : some v ∈ xs ∨ some v = c := by
  induction xs generalizing c with
  | nil => simp [ffillGo] at h
  | cons x xs ih =>
    cases x with
    | some w =>
      rw [show ffillGo c (some w :: xs) = some w :: ffillGo (some w) xs
        from rfl] at h
      rcases List.mem_cons.mp h with he | hm
      · exact Or.inl (by rw [he]; exact List.mem_cons_self _ _)
      · rcases ih (some w) hm with hin | he
        · exact Or.inl (List.mem_cons_of_mem _ hin)
        · exact Or.inl (by rw [he]; exact List.mem_cons_self _ _)
    | none =>
      rw [show ffillGo c (none :: xs) = c :: ffillGo c xs from rfl] at h
      rcases List.mem_cons.mp h with he | hm
      · exact Or.inr he
      · rcases ih c hm with hin | he
        · exact Or.inl (List.mem_cons_of_mem _ hin)
        · exact Or.inr he

theorem ffill_value_mem (xs : List (Option ℝ)) (v : ℝ)
    (h : some v ∈ ffill xs) : some v ∈ xs := by
  rcases ffillGo_value_mem none xs v h with hin | he
  · exact hin
  · exact absurd he (by simp)

theorem bfill_value_mem (xs : List (Option ℝ)) (v : ℝ)
    (h : some v ∈ bfill xs) : some v ∈ xs := by
  unfold bfill at h
  rw [List.mem_reverse] at h
  have := ffill_value_mem xs.reverse v h
  exact List.mem_reverse.mp this

theorem clipStage_length (xs : List (Option ℝ)) :
    (clipStage xs).length = xs.length := by simp [clipStage]

theorem ffill_length (c : Option ℝ) (xs : List (Option ℝ)) :
    (ffillGo c xs).length = xs.length := by
  induction xs generalizing c with
  | nil => rfl
  | cons x xs ih => cases x <;> simp [ffillGo, ih]

theorem bfill_length (xs : List (Option ℝ)) :
    (bfill xs).length = xs.length := by
  simp [bfill, ffill_length]

theorem cubicFit11_isSome (w : List (Option ℝ)) (x : ℝ)
    (hlen : w.length = 11) (hall : ∀ o ∈ w, o.isSome) :
    (cubicFit11 w x).isSome := by
  rw [cubicFit11, if_pos ⟨hlen, List.all_eq_true.mpr hall⟩]
  rfl

theorem savgolAt_isSome (ys : List (Option ℝ)) (i : ℕ)
    (hn : 11 < ys.length) (hi : i < ys.length)
    (hall : ∀ o ∈ ys, o.isSome) : (savgolAt ys i).isSome := by
  simp only [savgolAt]
  split_ifs with h1 h2
  · refine cubicFit11_isSome _ _ ?_ ?_
    · rw [List.length_take]; omega
    · exact fun o ho => hall o (List.take_subset _ _ ho)
  · refine cubicFit11_isSome _ _ ?_ ?_
    · rw [List.length_drop]; omega
    · exact fun o ho => hall o (List.drop_subset _ _ ho)
  · refine cubicFit11_isSome _ _ ?_ ?_
    · rw [List.length_take, List.length_drop]; omega
    · exact fun o ho =>
        hall o (List.drop_subset _ _ (List.take_subset _ _ ho))

theorem savgolFilter11_isSome (ys : List (Option ℝ)) (hn : 11 < ys.length)
    (hall : ∀ o ∈ ys, o.isSome) :
    ∀ o ∈ savgolFilter11 ys, o.isSome := by
  intro o ho
  obtain ⟨i, hi, rfl⟩ := List.mem_map.mp ho
  exact savgolAt_isSome ys i hn (List.mem_range.mp hi) hall

theorem pchipFill_allSome (f : ℕ → ℝ) (xs : List (Option ℝ))
    (h : xs.all Option.isSome = true) : pchipFill f xs = some xs := by
  unfold pchipFill
  split_ifs with h0 <;> rfl

theorem pchipFill_gaps (f : ℕ → ℝ) (xs : List (Option ℝ))
    (h2 : 2 ≤ (xs.filter fun o => o.isSome).length)
    (hn : ¬xs.all Option.isSome = true) :
    pchipFill f xs = some (pchipFillGo f 0 false xs) := by
  unfold pchipFill
  rw [if_neg (by omega), if_neg hn, if_neg (by omega)]

theorem pchipFill_some_length (f : ℕ → ℝ) (xs filled : List (Option ℝ))
    (h : pchipFill f xs = some filled) : filled.length = xs.length := by
  unfold pchipFill at h
  split_ifs at h
  · rw [show filled = xs from (Option.some.inj h).symm]
  · rw [show filled = xs from (Option.some.inj h).symm]
  · rw [show filled = pchipFillGo f 0 false xs from (Option.some.inj h).symm]
    exact pchipFillGo_length f 0 false xs

theorem bfill_allSome (xs : List (Option ℝ)) (h : ∀ o ∈ xs, o.isSome) :
    bfill xs = xs := by
  unfold bfill
  rw [ffillGo_allSome none xs.reverse
    (fun o ho => h o (List.mem_reverse.mp ho)), List.reverse_reverse]

/-- The clip-ffill-bfill chain turns any series shaped as a leading NaN
block followed by defined values — with the block empty or the defined
part nonempty — into an all-defined series. -/
theorem cleaned_isSome (filled : List (Option ℝ)) (k : ℕ)
    (ys : List (Option ℝ)) (hshape : filled = List.replicate k none ++ ys)
    (hys : ∀ o ∈ ys, o.isSome) (hk : k = 0 ∨ ys ≠ []) :
    ∀ o ∈ bfill (ffill (clipStage filled)), o.isSome := by
  have hclipys : ∀ o ∈ clipStage ys, o.isSome := clipStage_isSome ys hys
  rcases hk with rfl | hne
  · rw [hshape]
    simp only [List.replicate_zero, List.nil_append]
    rw [show ffill (clipStage ys) = clipStage ys from
      ffillGo_allSome none _ hclipys, bfill_allSome _ hclipys]
    exact hclipys
  · rw [hshape, clipStage_shape, show
      ffill (List.replicate k none ++ clipStage ys) =
        List.replicate k none ++ clipStage ys from
      ffill_shape k (clipStage ys) hclipys]
    exact bfill_isSome k (clipStage ys) (by simpa [clipStage] using hne)
      hclipys

/-- The final smoothing stage preserves definedness. -/
theorem post_stage_isSome (cleaned : List (Option ℝ))
    (h : ∀ o ∈ cleaned, o.isSome) :
    ∀ o ∈ (if SAVGOL_WINDOW < cleaned.length then savgolFilter11 cleaned
      else cleaned), o.isSome := by
  split_ifs with hl
  · exact savgolFilter11_isSome _ hl h
  · exact h

/-- C1 (amended): for a raw MAPopt series holding at least two defined
estimates — or no NaN at all — post-processing returns a series (no
exception) with no NaN anywhere; whenever a series is returned and the
input had at most `SAVGOL_WINDOW = 11` points (so no smoothing runs),
every value respects the `[40, 90]` clamp; and a series with exactly one
defined estimate alongside a NaN makes the uncaught pchip step raise
`ValueError` (`none`).  For longer series the Savitzky-Golay filter runs
*after* the clamp and can overshoot it (see the counterexample). -/
theorem post_process_no_nan_and_clamp (f : ℕ → ℝ)
    (series : List (Option ℝ)) :
    ((2 ≤ (series.filter fun o => o.isSome).length ∨
        series.all Option.isSome = true) →
      ∃ out, post_process_mapopt f series = some out ∧
        ∀ o ∈ out, o.isSome) ∧
    (∀ out, post_process_mapopt f series = some out →
      series.length ≤ SAVGOL_WINDOW →
      ∀ v : ℝ, some v ∈ out → MAP_OPT_MIN ≤ v ∧ v ≤ MAP_OPT_MAX) ∧
    ((series.filter fun o => o.isSome).length = 1 →
      (∃ o ∈ series, o.isSome = false) →
      post_process_mapopt f series = none) := by
  refine ⟨?_, ?_, ?_⟩
  · intro hdom
    by_cases hall : series.all Option.isSome = true
    · refine ⟨_, by simp only [post_process_mapopt, pchipFill_allSome f
        series hall]; rfl, ?_⟩
      exact post_stage_isSome _ (cleaned_isSome series 0 series (by simp)
        (fun o ho => List.all_eq_true.mp hall o ho) (Or.inl rfl))
    · have h2 : 2 ≤ (series.filter fun o => o.isSome).length :=
        hdom.resolve_right hall
      obtain ⟨k, ys, hshape, hys⟩ := pchipFillGo_shape f 0 series
      have hex : ∃ o ∈ series, o.isSome := by
        have hfil : series.filter (fun o => o.isSome) ≠ [] := by
          intro hnil
          rw [hnil] at h2
          simp at h2
        obtain ⟨o, ho⟩ := List.exists_mem_of_ne_nil _ hfil
        exact ⟨o, (List.mem_filter.mp ho).1, (List.mem_filter.mp ho).2⟩
      have hys_ne : ys ≠ [] := by
        obtain ⟨o, ho, hs⟩ := pchipFillGo_preserves_some f 0 false series hex
        have ho' : o ∈ List.replicate k none ++ ys := by
          rw [← hshape]; exact ho
        rcases List.mem_append.mp ho' with hrep | hmem
        · exact absurd hs (by simp [List.eq_of_mem_replicate hrep])
        · intro hnil; rw [hnil] at hmem; simp at hmem
      refine ⟨_, by simp only [post_process_mapopt,
        pchipFill_gaps f series h2 hall]; rfl, ?_⟩
      exact post_stage_isSome _
        (cleaned_isSome _ k ys hshape hys (Or.inr hys_ne))
  · intro out hout hshort v hv
    simp only [post_process_mapopt] at hout
    split at hout
    · exact Option.noConfusion hout
    · rename_i filled hpc
      obtain rfl := (Option.some.inj hout).symm
      have hcl : (bfill (ffill (clipStage filled))).length =
          series.length := by
        rw [bfill_length, ffill, ffill_length, clipStage_length,
          pchipFill_some_length f series filled hpc]
      have hnotlong :
          ¬SAVGOL_WINDOW < (bfill (ffill (clipStage filled))).length := by
        rw [hcl]
        simp only [SAVGOL_WINDOW] at hshort ⊢
        omega
      rw [if_neg hnotlong] at hv
      exact clipStage_values _ v (ffill_value_mem _ v (bfill_value_mem _ v hv))
  · intro h1 hnone
    have hnall : ¬series.all Option.isSome = true := by
      obtain ⟨o, ho, hf⟩ := hnone
      intro hall
      have := List.all_eq_true.mp hall o ho
      rw [hf] at this
      exact Bool.noConfusion this
    have hp : pchipFill f series = none := by
      unfold pchipFill
      rw [if_neg (by omega), if_neg hnall, if_pos h1]
    simp only [post_process_mapopt, hp]

/-- Counterexample to C1 as stated: a 13-point raw series whose values
all lie in `[40, 90]` (clipping is the identity on it) is smoothed to a
value above 90 at index 6: the Savitzky-Golay filter overshoots the
physiological clamp because the code clamps *before* smoothing. -/
theorem post_process_savgol_overshoot :
    clipStage [some 90, some 40, some 90, some 90, some 90, some 90,
        some 90, some 90, some 90, some 90, some 90, some 40, some 90] =
      [some 90, some 40, some 90, some 90, some 90, some 90, some 90,
        some 90, some 90, some 90, some 90, some 40, some 90] ∧
    ((post_process_mapopt (fun _ => 0)
        [some 90, some 40, some 90, some 90, some 90, some 90, some 90,
          some 90, some 90, some 90, some 90, some 40, some 90]).bind
      fun out => out.get? 6) = some (some (928620 / 9438)) ∧
    (90 : ℝ) < 928620 / 9438 := by
  have h90 : npClip 90 MAP_OPT_MIN MAP_OPT_MAX = 90 := by
    unfold npClip MAP_OPT_MIN MAP_OPT_MAX
    rw [max_eq_left (by norm_num), min_self]
  have h40 : npClip 40 MAP_OPT_MIN MAP_OPT_MAX = 40 := by
    unfold npClip MAP_OPT_MIN MAP_OPT_MAX
    rw [max_self, min_eq_left (by norm_num)]
  have hclip : clipStage [some 90, some 40, some 90, some 90, some 90,
      some 90, some 90, some 90, some 90, some 90, some 90, some 40,
      some 90] = [some 90, some 40, some 90, some 90, some 90, some 90,
      some 90, some 90, some 90, some 90, some 90, some 40, some 90] := by
    simp [clipStage, h90, h40]
  refine ⟨hclip, ?_, by norm_num⟩
  have hpchip : pchipFill (fun _ => 0) [some 90, some 40, some 90, some 90,
      some 90, some 90, some 90, some 90, some 90, some 90, some 90,
      some 40, some 90] = some [some 90, some 40, some 90, some 90, some 90,
      some 90, some 90, some 90, some 90, some 90, some 90, some 40,
      some 90] := rfl
  have hff : ffill [some (90:ℝ), some 40, some 90, some 90, some 90,
      some 90, some 90, some 90, some 90, some 90, some 90, some 40,
      some 90] = [some 90, some 40, some 90, some 90, some 90, some 90,
      some 90, some 90, some 90, some 90, some 90, some 40, some 90] := rfl
  have hbf : bfill [some (90:ℝ), some 40, some 90, some 90, some 90,
      some 90, some 90, some 90, some 90, some 90, some 90, some 40,
      some 90] = [some 90, some 40, some 90, some 90, some 90, some 90,
      some 90, some 90, some 90, some 90, some 90, some 40, some 90] := rfl
  simp only [post_process_mapopt, hpchip, hclip, hff, hbf]
  rw [if_pos (by norm_num [SAVGOL_WINDOW])]
  rw [Option.some_bind]
  have hwin : (([some (90:ℝ), some 40, some 90, some 90, some 90, some 90,
      some 90, some 90, some 90, some 90, some 90, some 40,
      some 90].drop (6 - 5)).take 11) = [some 40, some 90, some 90,
      some 90, some 90, some 90, some 90, some 90, some 90, some 90,
      some 40] := rfl
  have hsav : savgolAt [some (90:ℝ), some 40, some 90, some 90, some 90,
      some 90, some 90, some 90, some 90, some 90, some 90, some 40,
      some 90] 6 = some (928620 / 9438) := by
    simp only [savgolAt]
    rw [if_neg (by norm_num), if_neg (by norm_num [List.length_cons])]
    rw [hwin]
    simp only [cubicFit11]
    rw [if_pos (by constructor <;> rfl)]
    simp only [savgolKs, List.zip_cons_cons, List.map_cons, List.sum_cons,
      List.zip_nil_right, List.map_nil, List.sum_nil, Option.getD_some]
    norm_num
  simp only [savgolFilter11]
  rw [List.get?_map]
  norm_num [hsav]

/-! ## Theorems for the burden computation (claims C8, C10) -/

theorem headI_le_of_sorted (l : List ℚ) (h : l.Sorted (· ≤ ·)) :
    ∀ t ∈ l, l.headI ≤ t := by
  cases l with
  | nil => intro t ht; simp at ht
  | cons a as =>
    intro t ht
    rcases List.mem_cons.mp ht with rfl | hm
    · exact le_refl t
    · exact (List.sorted_cons.mp h).1 t hm

theorem le_getLastI_of_sorted (l : List ℚ) :
    l.Sorted (· ≤ ·) → ∀ t ∈ l, t ≤ l.getLastI := by
  rw [List.getLastI_eq_getLast?]
  induction l with
  | nil => intro h t ht; simp at ht
  | cons a as ih =>
    intro h t ht
    cases as with
    | nil =>
      rcases List.mem_cons.mp ht with rfl | hm
      · simp
      · simp at hm
    | cons b bs =>
      rw [List.getLast?_cons_cons]
      rcases List.mem_cons.mp ht with rfl | hm
      · have hab : t ≤ b := (List.sorted_cons.mp h).1 b (by simp)
        exact le_trans hab (ih (List.sorted_cons.mp h).2 b (by simp))
      · exact ih (List.sorted_cons.mp h).2 t hm

/-- C8 (amended): a burden query whose clamped range contains no
time-grid sample — in particular one entirely above or entirely below the
series' time span — returns zero time-burden and zero area-burden-ratio
without raising.  (A query with `start = end` landing exactly on a grid
sample is *not* such a query: it computes the burden of that single
sample, see the counterexample.) -/
theorem burden_metrics_empty_range (s : BurdenState) (tv : List ℚ)
    (ts te : ℚ) :
    ((∀ t ∈ tv, ¬(max ts tv.headI ≤ t ∧ t ≤ min te tv.getLastI)) →
      calculate_burden_metrics (some s) tv ts te =
        some ⟨max ts tv.headI, min te tv.getLastI, 0, 0⟩) ∧
    (tv.Sorted (· ≤ ·) → tv.getLastI < ts →
      calculate_burden_metrics (some s) tv ts te =
        some ⟨max ts tv.headI, min te tv.getLastI, 0, 0⟩) ∧
    (tv.Sorted (· ≤ ·) → te < tv.headI →
      calculate_burden_metrics (some s) tv ts te =
        some ⟨max ts tv.headI, min te tv.getLastI, 0, 0⟩) := by
  have hmain : (∀ t ∈ tv, ¬(max ts tv.headI ≤ t ∧ t ≤ min te tv.getLastI)) →
      calculate_burden_metrics (some s) tv ts te =
        some ⟨max ts tv.headI, min te tv.getLastI, 0, 0⟩ := by
    intro h
    simp only [calculate_burden_metrics]
    rw [if_pos]
    rw [List.count_eq_zero]
    intro hmem
    obtain ⟨t, ht, hdec⟩ := List.mem_map.mp hmem
    exact h t ht (of_decide_eq_true hdec)
  refine ⟨hmain, ?_, ?_⟩
  · intro hsort hlt
    refine hmain fun t ht hc => ?_
    have h1 : ts ≤ t := le_trans (le_max_left _ _) hc.1
    have h2 : t ≤ tv.getLastI := le_getLastI_of_sorted tv hsort t ht
    linarith
  · intro hsort hlt
    refine hmain fun t ht hc => ?_
    have h1 : t ≤ te := le_trans hc.2 (min_le_left _ _)
    have h2 : tv.headI ≤ t := headI_le_of_sorted tv hsort t ht
    linarith

/-- Counterexample to C8 as stated: with the deviation state computed
from a signal sitting 30 mmHg above MAPopt, the query `[1, 1]` (start =
end after clamping) lands exactly on the grid sample `t = 1` and returns
`time_burden = 100`, not the zero-valued result the claim's
"start ≥ end" case asserts. -/
theorem burden_metrics_point_range_nonzero :
    calculate_burden_metrics
        (some (calculate_deviation_and_burden [(0, 100), (1, 100)] [0, 1]
          [70, 70])) [0, 1] 1 1 = some ⟨1, 1, 100, 0⟩ ∧
      (100 : ℝ) ≠ 0 := by
  constructor
  · have hob : (calculate_deviation_and_burden [(0, 100), (1, 100)] [0, 1]
        [70, 70]).outside_bounds = [true, true] := by
      simp only [calculate_deviation_and_burden, npInterp, npInterpGo]
      norm_num [BURDEN_BOUNDS]
    simp only [calculate_burden_metrics, calculate_area_burden,
      maskedSelect, hob]
    norm_num [List.count_cons, npTrapz, List.getLastI, List.headI]
  · norm_num

/-- C10: both burden computations refuse to produce a result before
`calculate_deviation_and_burden` has populated the calculator state (the
source raises `ValueError` there). -/
theorem burden_requires_init (tv : List ℚ) (ts te w st : ℚ) :
    calculate_burden_metrics none tv ts te = none ∧
      calculate_burden_over_time none tv w st = none :=
  ⟨rfl, rfl⟩

/-! ## Theorems for the parallel scheduler (claim C9) -/

theorem process_time_point_fst (k : ℕ) (samples : List Sample) (t_now : ℚ) :
    (process_time_point k samples t_now).1 = k := by
  simp only [process_time_point]
  split_ifs <;> rfl

theorem runOne_fst (samples : List Sample) (a : ℕ × ℚ) :
    (runOne samples a).1 = a.1 := process_time_point_fst a.1 samples a.2

theorem writeResults_cons (samples : List Sample) (s : Slots) (a : ℕ × ℚ)
    (l : List (ℕ × ℚ)) :
    writeResults samples s (a :: l) =
      writeResults samples (writeSlot s (runOne samples a)) l := rfl

theorem writeResults_append (samples : List Sample) (s : Slots)
    (l₁ l₂ : List (ℕ × ℚ)) :
    writeResults samples s (l₁ ++ l₂) =
      writeResults samples (writeResults samples s l₁) l₂ :=
  List.foldl_append _ _ _ _

theorem writeResults_not_mem (samples : List Sample) (s : Slots)
    (args : List (ℕ × ℚ)) (k : ℕ) (h : k ∉ args.map Prod.fst) :
    writeResults samples s args k = s k := by
  induction args generalizing s with
  | nil => rfl
  | cons a as ih =>
    rw [writeResults_cons]
    have hk : k ∉ as.map Prod.fst := fun hm => h (by simp [hm])
    rw [ih _ hk]
    have hne : k ≠ (runOne samples a).1 := by
      rw [runOne_fst]
      intro he
      exact h (by simp [he])
    exact Function.update_noteq hne _ _

theorem writeResults_congr (samples : List Sample) (args : List (ℕ × ℚ)) :
    ∀ s t : Slots, (∀ k, k ∉ args.map Prod.fst → s k = t k) →
      writeResults samples s args = writeResults samples t args := by
  induction args with
  | nil =>
    intro s t h
    funext k
    exact h k (by simp)
  | cons a as ih =>
    intro s t h
    rw [writeResults_cons, writeResults_cons]
    refine ih _ _ fun k hk => ?_
    simp only [writeSlot]
    by_cases he : k = (runOne samples a).1
    · subst he
      rw [Function.update_same, Function.update_same]
    · rw [Function.update_noteq he, Function.update_noteq he]
      refine h k fun hm => ?_
      rw [List.map_cons] at hm
      rcases List.mem_cons.mp hm with h1 | h2
      · exact he (by rw [runOne_fst]; exact h1)
      · exact hk h2

theorem processChunks_eq_aux (samples : List Sample) :
    ∀ n (args : List (ℕ × ℚ)), args.length ≤ n → ∀ s : Slots,
      processChunks samples s args = writeResults samples s args := by
  intro n
  induction n with
  | zero =>
    intro args hle s
    rw [List.length_eq_zero.mp (Nat.le_zero.mp hle)]
    rw [processChunks]
    rfl
  | succ n ih =>
    intro args hle s
    cases args with
    | nil => rw [processChunks]; rfl
    | cons a as =>
      rw [processChunks]
      rw [ih _ (by simp [CHUNK_SIZE] at hle ⊢; omega) _]
      rw [← writeResults_append, List.take_append_drop]

theorem processChunks_eq (samples : List Sample) (args : List (ℕ × ℚ))
    (s : Slots) : processChunks samples s args = writeResults samples s args :=
  processChunks_eq_aux samples args.length args (le_refl _) s

theorem writeResults_enumFrom (samples : List Sample) (tv : List ℚ) :
    ∀ (n : ℕ) (s : Slots) (i : ℕ), n ≤ i → i < n + tv.length →
      writeResults samples s (List.enumFrom n tv) i =
        (process_time_point i samples (tv.getD (i - n) 0)).2 := by
  induction tv with
  | nil => intro n s i h1 h2; simp at h2; omega
  | cons a as ih =>
    intro n s i h1 h2
    rw [show List.enumFrom n (a :: as) = (n, a) :: List.enumFrom (n + 1) as
      from rfl, writeResults_cons]
    by_cases hi : i = n
    · subst hi
      rw [writeResults_not_mem]
      · simp only [writeSlot]
        rw [show (runOne samples (i, a)).1 = i from runOne_fst _ _]
        rw [Function.update_same]
        simp [runOne]
      · rw [List.enumFrom_map_fst]
        intro hm
        have := List.mem_range'_1.mp hm
        omega
    · have hn1 : n + 1 ≤ i := by omega
      rw [ih (n + 1) _ i hn1 (by simp at h2 ⊢; omega)]
      have hsub : i - n = (i - (n + 1)) + 1 := by omega
      rw [hsub, List.getD_cons_succ]

/-- C9: an exception after any number `m` of stored worker results makes
the fallback re-run every argument sequentially, and the final slot
assignment is identical to the successful chunked parallel path — and to
a plain sequential sweep — so every time-grid slot holds the result of
`_process_time_point` for its own evaluation time. -/
theorem parallel_fallback_equiv (samples : List Sample) (tv : List ℚ)
    (m : ℕ) :
    process_parallel_fallback samples (prepareArgs tv) m =
      writeResults samples initSlots (prepareArgs tv) ∧
    process_parallel_ok samples (prepareArgs tv) =
      writeResults samples initSlots (prepareArgs tv) ∧
    ∀ i, i < tv.length →
      process_parallel_fallback samples (prepareArgs tv) m i =
        (process_time_point i samples (tv.getD i 0)).2 := by
  have hfall : process_parallel_fallback samples (prepareArgs tv) m =
      writeResults samples initSlots (prepareArgs tv) := by
    unfold process_parallel_fallback
    refine writeResults_congr samples _ _ _ fun k hk => ?_
    refine writeResults_not_mem samples _ _ k fun hm => hk ?_
    rw [List.map_take] at hm
    exact List.mem_of_mem_take hm
  have hseq : ∀ i, i < tv.length →
      writeResults samples initSlots (prepareArgs tv) i =
        (process_time_point i samples (tv.getD i 0)).2 := by
    intro i hi
    have := writeResults_enumFrom samples tv 0 initSlots i (Nat.zero_le i)
      (by omega)
    simpa [prepareArgs, List.enum] using this
  exact ⟨hfall, processChunks_eq samples _ _,
    fun i hi => by rw [hfall]; exact hseq i hi⟩

end Mapopt
